import Mathlib

/-!
Verification of the faceted-value extraction core
(`crates/milli/src/update/new/extract/faceted/extract_facets.rs`).

Shallow embedding conventions:
* Rust `u16` field ids and `u32` document ids are `Nat`s; their big-endian
  serializations are modelled byte-for-byte (`beBytes2`, `beBytes4`).
* Rust byte buffers (`BVec<u8>`) are `List Nat`.
* Rust `String` / `&str` values are `List Char`; UTF-8 encoding and decoding
  are modelled explicitly (`utf8Encode`, `utf8Decode`).
* `hashbrown::HashMap` is modelled as an association list with
  first-match lookup, filter-based removal and remove-then-append insertion;
  iteration order of the model is the list order (the Rust iteration order is
  unspecified, and no claim depends on it).
* `BalancedCaches` (defined in `cache.rs`, outside the sources) is modelled by
  the trace of insertions made into it: `insert_del_u32` / `insert_add_u32`
  append a tagged `(key, docid)` event.  Cache I/O failures are out of scope,
  so the modelled insertions are total.
* The sender channel is modelled by the list of emitted events.
-/

namespace FacetExtract

/-- Tag `DelAdd`, the two-state deletion/addition tag (`update/del_add.rs`). -/
inductive DelAdd where
  | Deletion
  | Addition
  deriving DecidableEq, Repr

/-- Kind `FacetKind`: the class of a facet entry.  Modelled from the spec: the
one-byte discriminants are distinct across kinds; the concrete values below
follow the upstream declaration order (`Number = 0`, `String = 1`, `Null = 2`,
`Empty = 3`, `Exists = 4`), but no claim depends on the exact numbers. -/
inductive FacetKind where
  | Number
  | String
  | Null
  | Empty
  | Exists
  deriving DecidableEq, Repr

/-- The tag byte of a `FacetKind` (`FacetKind as u8`). -/
def FacetKind.toU8 : FacetKind → Nat
  | .Number => 0
  | .String => 1
  | .Null => 2
  | .Empty => 3
  | .Exists => 4

/-- Model of `u16::to_be_bytes`: two big-endian bytes of a field id. -/
def beBytes2 (n : Nat) : List Nat :=
  [n / 256 % 256, n % 256]

/-- Model of `u32::to_be_bytes`: four big-endian bytes of a document id. -/
def beBytes4 (n : Nat) : List Nat :=
  [n / 16777216 % 256, n / 65536 % 256, n / 256 % 256, n % 256]

/-- The 16-byte buffer filled by `OrderedF64Codec::serialize_into`
(`let mut ordered = [0u8; 16]` in the source).  The codec itself lives
outside the sources; only the byte-length is fixed by the call site. -/
abbrev OrdBytes : Type := { l : List Nat // l.length = 16 }

/-- Keys of the reconciler maps: `(FieldId, value-bytes)`. -/
abbrev RKey : Type := Nat × List Nat

/-- Association-list model of `HashMap::get`: first matching entry. -/
def aGet : List (RKey × DelAdd) → RKey → Option DelAdd
  | [], _ => none
  | (k, v) :: t, k' => if k' = k then some v else aGet t k'

/-- Association-list model of `HashMap::remove`: drop every entry at the key. -/
def aRemove (m : List (RKey × DelAdd)) (k : RKey) : List (RKey × DelAdd) :=
  m.filter fun p => !decide (p.1 = k)

/-- Association-list model of `HashMap::insert`: overwrite the key's entry. -/
def aInsert (m : List (RKey × DelAdd)) (k : RKey) (v : DelAdd) :
    List (RKey × DelAdd) :=
  aRemove m k ++ [(k, v)]

/-- Structure `DelAddFacetValue`: the per-document del/add reconciler, two maps keyed by
`(FieldId, value-bytes)`, one for strings and one for numbers. -/
structure DelAddFacetValue where
  strings : List (RKey × DelAdd)
  f64s : List (RKey × DelAdd)
  deriving DecidableEq, Repr

/-- Constructor `DelAddFacetValue::new`. -/
def DelAddFacetValue.new : DelAddFacetValue :=
  { strings := [], f64s := [] }

/-- Which reconciler map a kind selects; `none` models the `_ => return`
arm (kinds other than `String` and `Number` are not reconciled). -/
def DelAddFacetValue.bucket (m : DelAddFacetValue) :
    FacetKind → Option (List (RKey × DelAdd))
  | .String => some m.strings
  | .Number => some m.f64s
  | _ => none

/-- Store an updated bucket back into the reconciler. -/
def DelAddFacetValue.setBucket (m : DelAddFacetValue) (kind : FacetKind)
    (b : List (RKey × DelAdd)) : DelAddFacetValue :=
  match kind with
  | .String => { m with strings := b }
  | .Number => { m with f64s := b }
  | _ => m

/-- Method `DelAddFacetValue::insert_add`: if the key currently maps to `Deletion`,
remove it (net zero); otherwise store `Addition`. -/
def DelAddFacetValue.insert_add (m : DelAddFacetValue) (fid : Nat)
    (value : List Nat) (kind : FacetKind) : DelAddFacetValue :=
  match m.bucket kind with
  | none => m
  | some cache =>
    let key : RKey := (fid, value)
    if aGet cache key = some .Deletion then
      m.setBucket kind (aRemove cache key)
    else
      m.setBucket kind (aInsert cache key .Addition)

/-- Method `DelAddFacetValue::insert_del`: if the key currently maps to `Addition`,
remove it (net zero); otherwise store `Deletion`. -/
def DelAddFacetValue.insert_del (m : DelAddFacetValue) (fid : Nat)
    (value : List Nat) (kind : FacetKind) : DelAddFacetValue :=
  match m.bucket kind with
  | none => m
  | some cache =>
    let key : RKey := (fid, value)
    if aGet cache key = some .Addition then
      m.setBucket kind (aRemove cache key)
    else
      m.setBucket kind (aInsert cache key .Deletion)

/-! ## UTF-8 model

Rust strings are lists of Unicode scalar values (`List Char`); `str::len` and
`char_indices` are modelled through `Char.utf8Size`, and `String::as_bytes` /
`std::str::from_utf8` through an explicit UTF-8 encoder/decoder. -/

/-- Model of `str::len`: the UTF-8 byte length of a string. -/
def utf8Len (s : List Char) : Nat :=
  (s.map Char.utf8Size).sum

/-- The UTF-8 encoding of one scalar value (`char` encoded as in
`String::as_bytes`). -/
def utf8EncodeChar (c : Char) : List Nat :=
  let n := c.toNat
  if n < 128 then [n]
  else if n < 2048 then [192 + n / 64, 128 + n % 64]
  else if n < 65536 then [224 + n / 4096, 128 + n / 64 % 64, 128 + n % 64]
  else [240 + n / 262144, 128 + n / 4096 % 64, 128 + n / 64 % 64, 128 + n % 64]

/-- Model of `String::as_bytes`. -/
def utf8Encode (s : List Char) : List Nat :=
  (s.map utf8EncodeChar).flatten

/-- Is a byte a UTF-8 continuation byte (`0x80..=0xBF`)? -/
def isCont (b : Nat) : Bool :=
  128 ≤ b && b < 192

/-- Model of `std::str::from_utf8`: strict UTF-8 decoding.  Overlong forms, surrogate
code points and values above `0x10FFFF` are rejected, exactly as in Rust. -/
def utf8Decode : List Nat → Option (List Char)
  | [] => some []
  | b :: rest =>
    if b < 128 then
      (utf8Decode rest).map (fun cs => Char.ofNat b :: cs)
    else if 194 ≤ b && b ≤ 223 then
      match rest with
      | b1 :: rest1 =>
        if isCont b1 then
          (utf8Decode rest1).map (fun cs => Char.ofNat ((b - 192) * 64 + (b1 - 128)) :: cs)
        else none
      | [] => none
    else if 224 ≤ b && b ≤ 239 then
      match rest with
      | b1 :: b2 :: rest2 =>
        if isCont b1 && isCont b2 then
          let n := (b - 224) * 4096 + (b1 - 128) * 64 + (b2 - 128)
          if 2048 ≤ n && !(55296 ≤ n && n ≤ 57343) then
            (utf8Decode rest2).map (fun cs => Char.ofNat n :: cs)
          else none
        else none
      | _ => none
    else if 240 ≤ b && b ≤ 244 then
      match rest with
      | b1 :: b2 :: b3 :: rest3 =>
        if isCont b1 && isCont b2 && isCont b3 then
          let n := (b - 240) * 262144 + (b1 - 128) * 4096 + (b2 - 128) * 64 + (b3 - 128)
          if 65536 ≤ n && n ≤ 1114111 then
            (utf8Decode rest3).map (fun cs => Char.ofNat n :: cs)
          else none
        else none
      | _ => none
    else none

/-! ## `truncate_str` -/

/-- The byte offsets produced by
`s.char_indices().map(|(idx, _)| idx).chain(once(s.len()))`: every character
start offset followed by the total byte length. -/
def charBoundaries (s : List Char) : List Nat :=
  s.scanl (fun acc c => acc + c.utf8Size) 0

/-- Slicing `&s[..k]` for a byte index `k` that is a character boundary:
take whole characters while their bytes fit below `k`. -/
def takeBytes (k : Nat) : List Char → List Char
  | [] => []
  | c :: cs =>
    if k = 0 then []
    else if c.utf8Size ≤ k then c :: takeBytes (k - c.utf8Size) cs else []

/-- Function `truncate_str(s)`: slice the string at the last character boundary not
exceeding `maxLen` (the source's `MAX_FACET_VALUE_LENGTH`, a constant defined
outside these sources and kept as a parameter here). -/
def truncate_str (maxLen : Nat) (s : List Char) : List Char :=
  let index := ((charBoundaries s).takeWhile (fun idx => decide (idx ≤ maxLen))).getLast?
  takeBytes (index.getD 0) s

/-! ## Values and the balanced-cache trace -/

/-- Model of `serde_json::Value` as the extractor inspects it.  A `number` is
abstracted by the result of
`number.as_f64().and_then(|n| OrderedF64Codec::serialize_into(n, &mut ordered).ok())`
(the codec lives outside these sources): `some` carries the 16 bytes the
codec wrote, `none` models a non-finite or unrepresentable number.  Arrays
and objects carry only their element count, since the extractor inspects
nothing but `is_empty()`. -/
inductive JValue where
  | null
  | bool (b : Bool)
  | number (ord : Option OrdBytes)
  | string (s : List Char)
  | array (len : Nat)
  | object (len : Nat)

/-- One insertion made into the `BalancedCaches` (`cache.rs` is outside these
sources; the cache is modelled by the trace of its insertions). -/
structure CacheEvent where
  side : DelAdd
  key : List Nat
  docid : Nat
  deriving DecidableEq, Repr

/-- The balanced cache, modelled as its insertion trace. -/
abbrev BalancedCaches := List CacheEvent

/-- Method `BalancedCaches::insert_del_u32`. -/
def BalancedCaches.insert_del_u32 (c : BalancedCaches) (key : List Nat)
    (docid : Nat) : BalancedCaches :=
  c ++ [⟨.Deletion, key, docid⟩]

/-- Method `BalancedCaches::insert_add_u32`. -/
def BalancedCaches.insert_add_u32 (c : BalancedCaches) (key : List Nat)
    (docid : Nat) : BalancedCaches :=
  c ++ [⟨.Addition, key, docid⟩]

/-! ## `facet_fn_with_options` -/

/-- Method `FacetedDocidsExtractor::facet_fn_with_options`, parameterized like the
source over the cache-insertion function and the reconciler-insertion
function, and additionally over `normalize` (`crate::normalize_facet`, outside
these sources, a pure function per the spec) and `maxLen`
(`MAX_FACET_VALUE_LENGTH`).  The modelled cache insertions are total, so the
`Result` plumbing of the source is dropped: every path returns the updated
cache trace and reconciler. -/
def facet_fn_with_options
    (normalize : List Char → List Char) (maxLen : Nat)
    (cache_fn : BalancedCaches → List Nat → Nat → BalancedCaches)
    (facet_fn : DelAddFacetValue → Nat → List Nat → FacetKind → DelAddFacetValue)
    (cached_sorter : BalancedCaches) (del_add_facet_value : DelAddFacetValue)
    (docid : Nat) (fid : Nat) (value : JValue) :
    BalancedCaches × DelAddFacetValue :=
  let buffer := [FacetKind.Exists.toU8] ++ beBytes2 fid
  let cached_sorter := cache_fn cached_sorter buffer docid
  match value with
  | .number ord =>
    match ord with
    | some ordered =>
      let del_add_facet_value := facet_fn del_add_facet_value fid ordered.val .Number
      let buffer := [FacetKind.Number.toU8] ++ beBytes2 fid ++ [0] ++ ordered.val
      (cache_fn cached_sorter buffer docid, del_add_facet_value)
    | none => (cached_sorter, del_add_facet_value)
  | .string s =>
    let del_add_facet_value := facet_fn del_add_facet_value fid (utf8Encode s) .String
    let truncated := truncate_str maxLen (normalize s)
    let buffer := [FacetKind.String.toU8] ++ beBytes2 fid ++ [0] ++ utf8Encode truncated
    (cache_fn cached_sorter buffer docid, del_add_facet_value)
  | .null =>
    let buffer := [FacetKind.Null.toU8] ++ beBytes2 fid
    (cache_fn cached_sorter buffer docid, del_add_facet_value)
  | .array len =>
    if len = 0 then
      let buffer := [FacetKind.Empty.toU8] ++ beBytes2 fid
      (cache_fn cached_sorter buffer docid, del_add_facet_value)
    else
      (cached_sorter, del_add_facet_value)
  | .object len =>
    if len = 0 then
      let buffer := [FacetKind.Empty.toU8] ++ beBytes2 fid
      (cache_fn cached_sorter buffer docid, del_add_facet_value)
    else
      (cached_sorter, del_add_facet_value)
  | .bool _ => (cached_sorter, del_add_facet_value)

/-! ## `send_data` -/

/-- One call on the `FieldIdDocidFacetSender` channel (the sender lives
outside these sources; it is modelled by the list of calls made on it). -/
inductive SendEvent where
  | delete_facet_string (key : List Nat)
  | write_facet_string (key : List Nat) (value : List Nat)
  | delete_facet_f64 (key : List Nat)
  | write_facet_f64 (key : List Nat)
  deriving DecidableEq, Repr

/-- The first loop of `DelAddFacetValue::send_data`: for every `strings`
entry whose value bytes decode as UTF-8, emit one string call keyed by
`fid_be(2) || docid_be(4) || truncate(normalize(value))`; skip entries whose
bytes are not valid UTF-8. -/
def sendStrings (normalize : List Char → List Char) (maxLen : Nat)
    (docid : Nat) : List (RKey × DelAdd) → List SendEvent
  | [] => []
  | ((fid, value), deladd) :: t =>
    (match utf8Decode value with
     | some s =>
       let buffer := beBytes2 fid ++ beBytes4 docid
         ++ utf8Encode (truncate_str maxLen (normalize s))
       match deladd with
       | .Deletion => [SendEvent.delete_facet_string buffer]
       | .Addition => [SendEvent.write_facet_string buffer value]
     | none => []) ++ sendStrings normalize maxLen docid t

/-- The second loop of `DelAddFacetValue::send_data`: for every `f64s` entry,
emit one f64 call keyed by `fid_be(2) || docid_be(4) || ordered_bytes`. -/
def sendF64s (docid : Nat) : List (RKey × DelAdd) → List SendEvent
  | [] => []
  | ((fid, value), deladd) :: t =>
    (let buffer := beBytes2 fid ++ beBytes4 docid ++ value
     match deladd with
     | .Deletion => SendEvent.delete_facet_f64 buffer
     | .Addition => SendEvent.write_facet_f64 buffer) :: sendF64s docid t

/-- Method `DelAddFacetValue::send_data`: flush both reconciler maps to the sender.
The model iterates the association lists in list order; the Rust `HashMap`
iteration order is unspecified, and no claim depends on it. -/
def DelAddFacetValue.send_data (normalize : List Char → List Char)
    (maxLen : Nat) (m : DelAddFacetValue) (docid : Nat) : List SendEvent :=
  sendStrings normalize maxLen docid m.strings ++ sendF64s docid m.f64s

/-! ## `extract_document_change` -/

/-- Modelled from the spec: `extract_document_facets`
(`facet_document.rs`, outside these sources) walks one document and feeds
`(field id, value)` pairs to the emit callback in traversal order; the walk
may fail (field-id-map error or a walk error) after its emissions were
already applied.  A `Walk` records, for one side of a change: whether the
fallible document read that produces the side (`inner.current(...)?` /
`inner.merged(...)?` in the source, before any emission) fails
(`readFails`), the emissions the document produces, and whether the walk
itself fails after them (`fails`).  The `Insertion` arm reads its document
with the infallible `inner.inserted()`, so it never consults `readFails`. -/
structure Walk where
  readFails : Bool
  emits : List (Nat × JValue)
  fails : Bool

/-- Variant `DocumentChange` (the three change kinds), with each side abstracted by
the walk its document produces. -/
inductive DocumentChange where
  | Deletion (old : Walk)
  | Update (old new : Walk)
  | Insertion (new : Walk)

/-- The cache-insertion function the extractor passes for a side:
`BalancedCaches::insert_del_u32` for the deletion side,
`BalancedCaches::insert_add_u32` for the addition side. -/
def cacheFnOf : DelAdd → BalancedCaches → List Nat → Nat → BalancedCaches
  | .Deletion => BalancedCaches.insert_del_u32
  | .Addition => BalancedCaches.insert_add_u32

/-- The reconciler-insertion function the extractor passes for a side:
`DelAddFacetValue::insert_del` or `DelAddFacetValue::insert_add`. -/
def facetFnOf : DelAdd → DelAddFacetValue → Nat → List Nat → FacetKind → DelAddFacetValue
  | .Deletion => DelAddFacetValue.insert_del
  | .Addition => DelAddFacetValue.insert_add

/-- One `extract_document_facets` pass: fold the emit callback
(`facet_fn_with_options` with the side's insertion functions) over the
walk's emissions and report whether the pass fails. -/
def runPass (normalize : List Char → List Char) (maxLen : Nat) (side : DelAdd)
    (st : BalancedCaches × DelAddFacetValue) (docid : Nat) (w : Walk) :
    (BalancedCaches × DelAddFacetValue) × Bool :=
  (w.emits.foldl
    (fun st p =>
      facet_fn_with_options normalize maxLen (cacheFnOf side) (facetFnOf side)
        st.1 st.2 docid p.1 p.2)
    st, w.fails)

/-- The result of `extract_document_change`: the cache-insertion trace, the
sender calls made by `send_data` (`none` when `send_data` never ran because
the function returned early through `?`), and whether the function returned
`Ok`. -/
structure Outcome where
  cache : BalancedCaches
  sent : Option (List SendEvent)
  ok : Bool
  deriving DecidableEq, Repr

/-- Method `FacetedDocidsExtractor::extract_document_change`.  Mirrors the
source control flow, `?` early returns included: in the `Deletion` arm,
`inner.current(rtxn, ...)?` returns before `send_data` when the document
read fails; in the `Update` arm, `inner.current(...)?`, the `?` on the first
(old-pass) `extract_document_facets` call, and `inner.merged(...)?` each
return before `send_data`; only when the walk result is merely bound to
`res` (a `Deletion`/`Insertion` walk failure, or a failing new pass of an
`Update`) does `send_data` run before `res` is returned. -/
def extract_document_change (normalize : List Char → List Char) (maxLen : Nat)
    (document_change : DocumentChange) (docid : Nat) : Outcome :=
  let init : BalancedCaches × DelAddFacetValue := ([], DelAddFacetValue.new)
  match document_change with
  | .Deletion old =>
    if old.readFails then
      { cache := [], sent := none, ok := false }
    else
      let (st, err) := runPass normalize maxLen .Deletion init docid old
      { cache := st.1
        sent := some (st.2.send_data normalize maxLen docid)
        ok := !err }
  | .Update old new =>
    if old.readFails then
      { cache := [], sent := none, ok := false }
    else
      let (st1, err1) := runPass normalize maxLen .Deletion init docid old
      if err1 then
        { cache := st1.1, sent := none, ok := false }
      else if new.readFails then
        { cache := st1.1, sent := none, ok := false }
      else
        let (st2, err2) := runPass normalize maxLen .Addition st1 docid new
        { cache := st2.1
          sent := some (st2.2.send_data normalize maxLen docid)
          ok := !err2 }
  | .Insertion new =>
    let (st, err) := runPass normalize maxLen .Addition init docid new
    { cache := st.1
      sent := some (st.2.send_data normalize maxLen docid)
      ok := !err }

/-! ## Reconciler call sequences

Abstract sequences of `insert_add` / `insert_del` calls, used to state the
order-independence and cancellation properties of the reconciler. -/

/-- One reconciler insertion call. -/
inductive RecOp where
  | add (fid : Nat) (value : List Nat) (kind : FacetKind)
  | del (fid : Nat) (value : List Nat) (kind : FacetKind)
  deriving DecidableEq, Repr

/-- The field id of a call. -/
def RecOp.fid : RecOp → Nat
  | .add f _ _ => f
  | .del f _ _ => f

/-- The value bytes of a call. -/
def RecOp.value : RecOp → List Nat
  | .add _ v _ => v
  | .del _ v _ => v

/-- The facet kind of a call. -/
def RecOp.kind : RecOp → FacetKind
  | .add _ _ k => k
  | .del _ _ k => k

/-- Whether a call is an `insert_add`. -/
def RecOp.isAdd : RecOp → Bool
  | .add _ _ _ => true
  | .del _ _ _ => false

/-- Apply one call to the reconciler. -/
def applyOp (m : DelAddFacetValue) : RecOp → DelAddFacetValue
  | .add fid value kind => m.insert_add fid value kind
  | .del fid value kind => m.insert_del fid value kind

/-- Apply a sequence of calls, left to right. -/
def runOps (ops : List RecOp) (m : DelAddFacetValue) : DelAddFacetValue :=
  ops.foldl applyOp m

/-- The directions (`true` = add) of the calls of a sequence that target one
`(kind, fid, value)` triple, in order. -/
def opsAt (kind : FacetKind) (fid : Nat) (value : List Nat)
    (ops : List RecOp) : List Bool :=
  (ops.filter fun op =>
    decide (op.kind = kind) && decide (op.fid = fid) && decide (op.value = value)).map
    RecOp.isAdd

/-- Does a direction list strictly alternate (no two equal neighbours)? -/
def alternating : List Bool → Bool
  | [] => true
  | [_] => true
  | x :: y :: t => (x != y) && alternating (y :: t)

/-- The entry the reconciler holds for a `(kind, fid, value)` triple
(`none` for the kinds that are not reconciled). -/
def DelAddFacetValue.lookup (m : DelAddFacetValue) (kind : FacetKind)
    (fid : Nat) (value : List Nat) : Option DelAdd :=
  match m.bucket kind with
  | some b => aGet b (fid, value)
  | none => none

/-- The per-key effect of one reconciler call on the entry it targets:
an add cancels a `Deletion` and otherwise stores `Addition`; a del cancels
an `Addition` and otherwise stores `Deletion`. -/
def stepB : Option DelAdd → Bool → Option DelAdd
  | cur, true => if cur = some .Deletion then none else some .Addition
  | cur, false => if cur = some .Addition then none else some .Deletion

/-! ## Association-list lemmas -/

theorem aGet_append_none (l1 l2 : List (RKey × DelAdd)) (k : RKey)
    (h : aGet l1 k = none) : aGet (l1 ++ l2) k = aGet l2 k := by
  induction l1 with
  | nil => simp
  | cons p t ih =>
    obtain ⟨k0, v0⟩ := p
    by_cases h0 : k = k0
    · simp [aGet, h0] at h
    · simp [aGet, h0] at h ⊢
      exact ih h

theorem aGet_aRemove (m : List (RKey × DelAdd)) (k k' : RKey) :
    aGet (aRemove m k) k' = if k' = k then none else aGet m k' := by
  induction m with
  | nil => simp [aRemove, aGet]
  | cons p t ih =>
    obtain ⟨k0, v0⟩ := p
    by_cases h0 : k0 = k
    · subst h0
      by_cases h1 : k' = k0 <;>
        simp [aRemove, aGet, h1] at ih ⊢ <;>
        simp [ih]
    · by_cases h1 : k' = k0
      · subst h1
        have h2 : ¬k' = k := h0
        simp [aRemove, aGet, h0, h2]
      · simp [aRemove, aGet, h0, h1] at ih ⊢
        exact ih

theorem aGet_append_some (l1 l2 : List (RKey × DelAdd)) (k : RKey)
    (v : DelAdd) (h : aGet l1 k = some v) : aGet (l1 ++ l2) k = some v := by
  induction l1 with
  | nil => simp [aGet] at h
  | cons p t ih =>
    obtain ⟨k0, v0⟩ := p
    by_cases h0 : k = k0 <;> simp [aGet, h0] at h ⊢
    · exact h
    · exact ih h

theorem aGet_aInsert (m : List (RKey × DelAdd)) (k k' : RKey) (v : DelAdd) :
    aGet (aInsert m k v) k' = if k' = k then some v else aGet m k' := by
  have h1 : aGet (aRemove m k) k' = if k' = k then none else aGet m k' :=
    aGet_aRemove m k k'
  by_cases h : k' = k
  · subst h
    simp only [if_pos rfl] at h1 ⊢
    rw [aInsert, aGet_append_none _ _ _ h1]
    simp [aGet]
  · simp only [if_neg h] at h1 ⊢
    rw [aInsert]
    cases h2 : aGet m k' with
    | none =>
      rw [aGet_append_none _ _ _ (h1.trans h2)]
      simp [aGet, h]
    | some v' =>
      rw [aGet_append_some _ _ _ _ (h1.trans h2)]

theorem aRemove_aInsert (m : List (RKey × DelAdd)) (k : RKey) (v : DelAdd) :
    aRemove (aInsert m k v) k = aRemove m k := by
  simp [aInsert, aRemove, List.filter_append]

theorem aInsert_aInsert (m : List (RKey × DelAdd)) (k : RKey) (v : DelAdd) :
    aInsert (aInsert m k v) k v = aInsert m k v := by
  conv_lhs => rw [aInsert, aRemove_aInsert]
  rfl

theorem aGet_none_iff_nil (m : List (RKey × DelAdd)) :
    (∀ k, aGet m k = none) → m = [] := by
  intro h
  cases m with
  | nil => rfl
  | cons p t =>
    have := h p.1
    simp [aGet] at this

/-! ## Claims about `facet_fn_with_options` -/

/-- C8: for every call of the emit callback, whatever the kind of the JSON
value (number, string, null, empty array/object, boolean, non-empty
array/object), the cache insertion function is invoked first with the key
`[Exists tag] ++ field_id_be(2)` for the document id, tagged according to the
side being walked. -/
theorem exists_key_inserted_first (normalize : List Char → List Char)
    (maxLen : Nat) (side : DelAdd) (cached : BalancedCaches)
    (recon : DelAddFacetValue) (docid fid : Nat) (value : JValue) :
    ∃ tail,
      (facet_fn_with_options normalize maxLen (cacheFnOf side) (facetFnOf side)
          cached recon docid fid value).1 =
        cached ++ ⟨side, [FacetKind.Exists.toU8] ++ beBytes2 fid, docid⟩ :: tail := by
  have hc : ∀ (c : BalancedCaches) (key : List Nat) (d : Nat),
      cacheFnOf side c key d = c ++ [⟨side, key, d⟩] := by
    cases side <;> intros <;> rfl
  cases value with
  | number ord =>
    cases ord with
    | none => exact ⟨[], by simp [facet_fn_with_options, hc]⟩
    | some ordered =>
      exact ⟨[⟨side, [FacetKind.Number.toU8] ++ beBytes2 fid ++ [0]
          ++ ordered.val, docid⟩], by simp [facet_fn_with_options, hc]⟩
  | string s =>
    exact ⟨[⟨side, [FacetKind.String.toU8] ++ beBytes2 fid ++ [0]
        ++ utf8Encode (truncate_str maxLen (normalize s)), docid⟩],
      by simp [facet_fn_with_options, hc]⟩
  | null =>
    exact ⟨[⟨side, [FacetKind.Null.toU8] ++ beBytes2 fid, docid⟩],
      by simp [facet_fn_with_options, hc]⟩
  | bool b => exact ⟨[], by simp [facet_fn_with_options, hc]⟩
  | array len =>
    by_cases h : len = 0
    · exact ⟨[⟨side, [FacetKind.Empty.toU8] ++ beBytes2 fid, docid⟩],
        by simp [facet_fn_with_options, hc, h]⟩
    · exact ⟨[], by simp [facet_fn_with_options, hc, h]⟩
  | object len =>
    by_cases h : len = 0
    · exact ⟨[⟨side, [FacetKind.Empty.toU8] ++ beBytes2 fid, docid⟩],
        by simp [facet_fn_with_options, hc, h]⟩
    · exact ⟨[], by simp [facet_fn_with_options, hc, h]⟩

/-- C6: for an emission with a representable JSON number, the typed cache key
is exactly `[Number tag] ++ field_id_be(2) ++ [0] ++ ordered_f64(16 bytes)`;
for a string, it is exactly `[String tag] ++ field_id_be(2) ++ [0]` followed
by the truncated normalized string bytes.  In both cases it is inserted right
after the `Exists` key. -/
theorem facet_cache_key_layout (normalize : List Char → List Char)
    (maxLen : Nat) (side : DelAdd) (cached : BalancedCaches)
    (recon : DelAddFacetValue) (docid fid : Nat) :
    (∀ ordered : OrdBytes,
      (facet_fn_with_options normalize maxLen (cacheFnOf side) (facetFnOf side)
          cached recon docid fid (.number (some ordered))).1 =
        cached ++
          [⟨side, [FacetKind.Exists.toU8] ++ beBytes2 fid, docid⟩,
           ⟨side, [FacetKind.Number.toU8] ++ beBytes2 fid ++ [0] ++ ordered.val,
             docid⟩] ∧
      ordered.val.length = 16) ∧
    (∀ s : List Char,
      (facet_fn_with_options normalize maxLen (cacheFnOf side) (facetFnOf side)
          cached recon docid fid (.string s)).1 =
        cached ++
          [⟨side, [FacetKind.Exists.toU8] ++ beBytes2 fid, docid⟩,
           ⟨side, [FacetKind.String.toU8] ++ beBytes2 fid ++ [0]
               ++ utf8Encode (truncate_str maxLen (normalize s)), docid⟩]) := by
  constructor
  · intro ordered
    refine ⟨?_, ordered.property⟩
    cases side <;>
      simp [facet_fn_with_options, cacheFnOf,
        BalancedCaches.insert_del_u32, BalancedCaches.insert_add_u32]
  · intro s
    cases side <;>
      simp [facet_fn_with_options, cacheFnOf,
        BalancedCaches.insert_del_u32, BalancedCaches.insert_add_u32]

/-- C7: for an emission whose number is non-finite or not representable as an
ordered f64 (`as_f64().and_then(serialize_into).is_some()` fails), the
extractor skips it: no `Number` key is inserted into the cache, the
reconciler is unchanged, but the `Exists` key for the field is still
recorded.  (The modelled cache insertions are total, so no error is
raised on this path, matching the source's `Ok(())`.) -/
theorem nonrepresentable_number_skipped (normalize : List Char → List Char)
    (maxLen : Nat) (side : DelAdd) (cached : BalancedCaches)
    (recon : DelAddFacetValue) (docid fid : Nat) :
    facet_fn_with_options normalize maxLen (cacheFnOf side) (facetFnOf side)
        cached recon docid fid (.number none) =
      (cached ++ [⟨side, [FacetKind.Exists.toU8] ++ beBytes2 fid, docid⟩],
        recon) := by
  cases side <;>
    simp [facet_fn_with_options, cacheFnOf,
      BalancedCaches.insert_del_u32, BalancedCaches.insert_add_u32]

/-- C4 counterexample: a boolean emission does add a cache entry — the
`Exists` key is inserted before the value is even inspected — so the claim
that neither the cache nor the reconciler gains any entry is false.
Concretely, on the add side with `fid = 3`, `docid = 7` and an initially
empty cache, processing `true` leaves one `Exists` cache event. -/
theorem bool_value_writes_exists_cex :
    (facet_fn_with_options id 0 (cacheFnOf .Addition) (facetFnOf .Addition)
        [] DelAddFacetValue.new 7 3 (.bool true)).1 =
      [⟨.Addition, [FacetKind.Exists.toU8] ++ beBytes2 3, 7⟩] ∧
    (facet_fn_with_options id 0 (cacheFnOf .Addition) (facetFnOf .Addition)
        [] DelAddFacetValue.new 7 3 (.bool true)).1 ≠ [] := by
  constructor
  · rfl
  · decide

/-- C4 amended: a boolean emission yields no typed cache key and no
reconciler entry; the only effect is the `Exists` cache insertion that the
emit callback performs for every value. -/
theorem bool_value_only_exists (normalize : List Char → List Char)
    (maxLen : Nat) (side : DelAdd) (cached : BalancedCaches)
    (recon : DelAddFacetValue) (docid fid : Nat) (b : Bool) :
    facet_fn_with_options normalize maxLen (cacheFnOf side) (facetFnOf side)
        cached recon docid fid (.bool b) =
      (cached ++ [⟨side, [FacetKind.Exists.toU8] ++ beBytes2 fid, docid⟩],
        recon) := by
  cases side <;>
    simp [facet_fn_with_options, cacheFnOf,
      BalancedCaches.insert_del_u32, BalancedCaches.insert_add_u32]

/-! ## Claims about the reconciler insertions -/

/-- C2 counterexample: starting from a state that maps the key to `Deletion`,
one `insert_add` removes the entry (net zero) but a second `insert_add`
re-inserts `Addition`, so two calls in a row are not equivalent to one. -/
theorem insert_add_twice_differs_cex :
    aGet (((DelAddFacetValue.mk [((0, [0]), .Deletion)] []).insert_add 0 [0]
        .String).insert_add 0 [0] .String).strings (0, [0]) ≠
      aGet ((DelAddFacetValue.mk [((0, [0]), .Deletion)] []).insert_add 0 [0]
        .String).strings (0, [0]) := by
  decide

/-- C2 amended: `insert_add` twice in a row is equivalent to once from every
starting state whose entry at the key is not `Deletion` (in particular, kinds
`String` and `Number`); symmetrically, `insert_del` twice is equivalent to
once whenever the entry is not `Addition`. -/
theorem insert_twice_idempotent_unless_opposite (m : DelAddFacetValue)
    (fid : Nat) (value : List Nat) (kind : FacetKind) :
    (m.lookup kind fid value ≠ some .Deletion →
      (m.insert_add fid value kind).insert_add fid value kind =
        m.insert_add fid value kind) ∧
    (m.lookup kind fid value ≠ some .Addition →
      (m.insert_del fid value kind).insert_del fid value kind =
        m.insert_del fid value kind) := by
  constructor
  · intro h
    cases kind with
    | String =>
      simp only [DelAddFacetValue.lookup, DelAddFacetValue.bucket] at h
      simp [DelAddFacetValue.insert_add, DelAddFacetValue.bucket,
        DelAddFacetValue.setBucket, h, aGet_aInsert, aRemove_aInsert,
        aInsert_aInsert]
    | Number =>
      simp only [DelAddFacetValue.lookup, DelAddFacetValue.bucket] at h
      simp [DelAddFacetValue.insert_add, DelAddFacetValue.bucket,
        DelAddFacetValue.setBucket, h, aGet_aInsert, aRemove_aInsert,
        aInsert_aInsert]
    | Null => rfl
    | Empty => rfl
    | Exists => rfl
  · intro h
    cases kind with
    | String =>
      simp only [DelAddFacetValue.lookup, DelAddFacetValue.bucket] at h
      simp [DelAddFacetValue.insert_del, DelAddFacetValue.bucket,
        DelAddFacetValue.setBucket, h, aGet_aInsert, aRemove_aInsert,
        aInsert_aInsert]
    | Number =>
      simp only [DelAddFacetValue.lookup, DelAddFacetValue.bucket] at h
      simp [DelAddFacetValue.insert_del, DelAddFacetValue.bucket,
        DelAddFacetValue.setBucket, h, aGet_aInsert, aRemove_aInsert,
        aInsert_aInsert]
    | Null => rfl
    | Empty => rfl
    | Exists => rfl

/-- C2 witness: the amended idempotence at a concrete input (fresh
reconciler, string key). -/
theorem insert_twice_idempotent_witness :
    ((DelAddFacetValue.new.insert_add 5 [1, 2] .String).insert_add 5 [1, 2]
        .String = DelAddFacetValue.new.insert_add 5 [1, 2] .String) ∧
    ((DelAddFacetValue.new.insert_del 5 [1, 2] .Number).insert_del 5 [1, 2]
        .Number = DelAddFacetValue.new.insert_del 5 [1, 2] .Number) :=
  ⟨(insert_twice_idempotent_unless_opposite DelAddFacetValue.new 5 [1, 2]
      .String).1 (by decide),
   (insert_twice_idempotent_unless_opposite DelAddFacetValue.new 5 [1, 2]
      .Number).2 (by decide)⟩

/-- C10: the reconciler keys number entries by the 16-byte ordered-f64
encoding of the parsed double, not by the JSON text: an `Update` whose old
and new sides emit, for the same field id, numbers whose parsed doubles
serialize to the same ordered bytes (for example `10` and `10.0`) leaves no
`f64s` entry for that key, and the flush sends nothing.  (The ordered
encoding, outside these sources, is a pure function of the parsed double per
the spec, so equal doubles give equal `ordered` bytes.) -/
theorem number_del_add_cancellation (normalize : List Char → List Char)
    (maxLen : Nat) (fid docid : Nat) (ordered : OrdBytes) :
    (extract_document_change normalize maxLen
        (.Update ⟨false, [(fid, .number (some ordered))], false⟩
          ⟨false, [(fid, .number (some ordered))], false⟩) docid).sent = some [] ∧
    ((runPass normalize maxLen .Addition
        (runPass normalize maxLen .Deletion ([], DelAddFacetValue.new) docid
          ⟨false, [(fid, .number (some ordered))], false⟩).1
        docid ⟨false, [(fid, .number (some ordered))], false⟩).1.2).f64s = [] := by
  have h : (runPass normalize maxLen .Addition
      (runPass normalize maxLen .Deletion ([], DelAddFacetValue.new) docid
        ⟨false, [(fid, .number (some ordered))], false⟩).1
      docid ⟨false, [(fid, .number (some ordered))], false⟩).1.2 =
      DelAddFacetValue.new := by
    simp [runPass, facet_fn_with_options, facetFnOf, DelAddFacetValue.new,
      DelAddFacetValue.insert_del, DelAddFacetValue.insert_add,
      DelAddFacetValue.bucket, DelAddFacetValue.setBucket,
      aInsert, aRemove, aGet]
  constructor
  · simp [extract_document_change]
    rw [show (runPass normalize maxLen .Deletion ([], DelAddFacetValue.new)
        docid ⟨false, [(fid, .number (some ordered))], false⟩).2 = false from rfl]
    simp only [Bool.false_eq_true, if_false]
    rw [h]
    rfl
  · rw [h]
    rfl

/-! ## Claims about `extract_document_change` -/

/-- C1 counterexample: two `Update` early-return paths skip the flush.
First, when the old-pass walk fails, the `?` after the first
`extract_document_facets` returns from `extract_document_change` before
`send_data`, even though the already-accumulated reconciler state would have
produced a sender call.  Second, when the old pass succeeds but the
merged-document read of the new pass fails, `inner.merged(...)?` returns
before `send_data` with the old pass's deletions still pending. -/
theorem update_old_pass_error_skips_flush_cex :
    ((extract_document_change id 10
        (.Update ⟨false, [(0, .string ['a'])], true⟩ ⟨false, [], false⟩)
        0).sent = none ∧
      ((runPass id 10 .Deletion ([], DelAddFacetValue.new) 0
        ⟨false, [(0, .string ['a'])], true⟩).1.2).send_data id 10 0 ≠ []) ∧
    ((extract_document_change id 10
        (.Update ⟨false, [(0, .string ['a'])], false⟩ ⟨true, [], false⟩)
        0).sent = none ∧
      ((runPass id 10 .Deletion ([], DelAddFacetValue.new) 0
        ⟨false, [(0, .string ['a'])], false⟩).1.2).send_data id 10 0 ≠ []) := by
  refine ⟨⟨rfl, by decide⟩, ⟨rfl, by decide⟩⟩

/-- C1 amended: the flush runs exactly on the paths that reach the end of
`extract_document_change`: always for an `Insertion`; for a `Deletion`
unless its document read fails; for an `Update` unless the old document
read, the old-pass walk, or the merged-document read fails.  On those
early-return paths the `?` operator propagates the error before the flush;
a walk failure of a `Deletion`, of an `Insertion`, or of the new pass of an
`Update` still sends the accumulated reconciler state. -/
theorem flush_after_passes_characterization (normalize : List Char → List Char)
    (maxLen : Nat) (docid : Nat) :
    (∀ old, (extract_document_change normalize maxLen (.Deletion old) docid).sent =
      if old.readFails then none
      else
        some (((runPass normalize maxLen .Deletion ([], DelAddFacetValue.new)
          docid old).1.2).send_data normalize maxLen docid)) ∧
    (∀ new, (extract_document_change normalize maxLen (.Insertion new) docid).sent =
      some (((runPass normalize maxLen .Addition ([], DelAddFacetValue.new)
        docid new).1.2).send_data normalize maxLen docid)) ∧
    (∀ old new, (extract_document_change normalize maxLen (.Update old new) docid).sent =
      if old.readFails || old.fails || new.readFails then none
      else
        some (((runPass normalize maxLen .Addition
          (runPass normalize maxLen .Deletion ([], DelAddFacetValue.new)
            docid old).1 docid new).1.2).send_data normalize maxLen docid)) := by
  refine ⟨fun old => ?_, fun new => rfl, fun old new => ?_⟩
  · cases h : old.readFails <;>
      simp [extract_document_change, runPass, h]
  · cases h1 : old.readFails <;> cases h2 : old.fails <;>
      cases h3 : new.readFails <;>
      simp [extract_document_change, runPass, h1, h2, h3]

/-! ## `truncate_str` lemmas (C5) -/

theorem utf8Len_cons (c : Char) (s : List Char) :
    utf8Len (c :: s) = c.utf8Size + utf8Len s := by
  simp [utf8Len]

theorem scanl_size_shift (s : List Char) (a : Nat) :
    s.scanl (fun acc c => acc + c.utf8Size) a =
      (s.scanl (fun acc c => acc + c.utf8Size) 0).map (a + ·) := by
  induction s generalizing a with
  | nil => simp
  | cons c cs ih =>
    rw [List.scanl_cons, List.scanl_cons, ih (a + c.utf8Size),
      ih (0 + c.utf8Size)]
    simp [List.map_map, Function.comp, Nat.add_assoc]

theorem charBoundaries_cons (c : Char) (cs : List Char) :
    charBoundaries (c :: cs) =
      0 :: (charBoundaries cs).map (c.utf8Size + ·) := by
  rw [charBoundaries, List.scanl_cons, charBoundaries,
    ← scanl_size_shift cs c.utf8Size]
  simp

theorem takeWhile_charBoundaries_ne_nil (maxLen : Nat) (s : List Char) :
    (charBoundaries s).takeWhile (fun idx => decide (idx ≤ maxLen)) ≠ [] := by
  cases s with
  | nil =>
    simp [charBoundaries]
  | cons c cs =>
    rw [charBoundaries_cons, List.takeWhile_cons_of_pos (by simp)]
    simp

theorem truncate_str_nil (maxLen : Nat) : truncate_str maxLen [] = [] := by
  simp [truncate_str, charBoundaries, takeBytes]

theorem getLastD_cons_map (f : Nat → Nat) (a x : Nat) (xs : List Nat) :
    ((a :: (x :: xs).map f).getLast?).getD 0 =
      f (((x :: xs).getLast?).getD 0) := by
  induction xs generalizing a x with
  | nil => simp
  | cons y ys ih =>
    rw [List.map_cons, List.getLast?_cons_cons, ih (f x) y,
      List.getLast?_cons_cons]

theorem truncate_str_cons (maxLen : Nat) (c : Char) (cs : List Char) :
    truncate_str maxLen (c :: cs) =
      if c.utf8Size ≤ maxLen then
        c :: truncate_str (maxLen - c.utf8Size) cs
      else [] := by
  by_cases h : c.utf8Size ≤ maxLen
  · rw [if_pos h, truncate_str, truncate_str, charBoundaries_cons,
      List.takeWhile_cons_of_pos (by simp), List.takeWhile_map]
    have hp : ((fun idx => decide (idx ≤ maxLen)) ∘ (c.utf8Size + ·)) =
        fun idx => decide (idx ≤ maxLen - c.utf8Size) := by
      funext i
      simp only [Function.comp]
      rw [decide_eq_decide]
      omega
    rw [hp]
    obtain ⟨x, xs, hxe⟩ :=
      List.exists_cons_of_ne_nil
        (takeWhile_charBoundaries_ne_nil (maxLen - c.utf8Size) cs)
    rw [hxe, getLastD_cons_map]
    have hpos := c.utf8Size_pos
    simp only [takeBytes]
    rw [if_neg (by omega), if_pos (by omega)]
    congr 2
    omega
  · rw [if_neg h, truncate_str, charBoundaries_cons,
      List.takeWhile_cons_of_pos (by simp), List.takeWhile_map]
    have hnil : ((charBoundaries cs).takeWhile
        ((fun idx => decide (idx ≤ maxLen)) ∘ (c.utf8Size + ·))) = [] := by
      cases hcb : charBoundaries cs with
      | nil => rfl
      | cons b bs =>
        refine List.takeWhile_cons_of_neg ?_
        simp only [Function.comp, decide_eq_true_eq]
        omega
    rw [hnil]
    simp [takeBytes]

/-- C5: `truncate_str` returns a character-aligned (hence valid-UTF-8) prefix
of `s` whose byte length is at most `MAX_FACET_VALUE_LENGTH` and is the
greatest among the prefixes that fit (equivalently, it cuts at the greatest
character-boundary byte index `≤ MAX_FACET_VALUE_LENGTH`, never splitting a
multi-byte code point); it is empty when `s` is empty or the limit is `0`. -/
theorem truncate_str_spec (maxLen : Nat) (s : List Char) :
    (∃ n, truncate_str maxLen s = s.take n) ∧
    utf8Len (truncate_str maxLen s) ≤ maxLen ∧
    (∀ j, utf8Len (s.take j) ≤ maxLen →
      utf8Len (s.take j) ≤ utf8Len (truncate_str maxLen s)) ∧
    (s = [] → truncate_str maxLen s = []) ∧
    (maxLen = 0 → truncate_str maxLen s = []) := by
  induction s generalizing maxLen with
  | nil =>
    refine ⟨⟨0, by simp [truncate_str_nil]⟩, ?_, ?_, ?_, ?_⟩ <;>
      simp [truncate_str_nil, utf8Len]
  | cons c cs ih =>
    by_cases h : c.utf8Size ≤ maxLen
    · have hpos := c.utf8Size_pos
      obtain ⟨⟨n, hn⟩, hlen, hmax, -, -⟩ := ih (maxLen - c.utf8Size)
      refine ⟨⟨n + 1, ?_⟩, ?_, ?_, ?_, ?_⟩
      · rw [truncate_str_cons, if_pos h, hn]
        simp
      · rw [truncate_str_cons, if_pos h, utf8Len_cons]
        omega
      · intro j hj
        cases j with
        | zero => simp [utf8Len]
        | succ j' =>
          rw [List.take_succ_cons, utf8Len_cons] at hj ⊢
          rw [truncate_str_cons, if_pos h, utf8Len_cons]
          have := hmax j' (by omega)
          omega
      · intro hcontra
        cases hcontra
      · intro h0
        omega
    · refine ⟨⟨0, ?_⟩, ?_, ?_, ?_, ?_⟩
      · rw [truncate_str_cons, if_neg h]
        simp
      · rw [truncate_str_cons, if_neg h]
        simp [utf8Len]
      · intro j hj
        cases j with
        | zero => simp [utf8Len]
        | succ j' =>
          rw [List.take_succ_cons, utf8Len_cons] at hj
          omega
      · intro hcontra
        cases hcontra
      · intro h0
        rw [truncate_str_cons, if_neg h]

/-- C5 witness: the truncation bound and the maximality hypothesis
discharged at a concrete input (`"abc"` with a limit of 2 bytes). -/
theorem truncate_str_spec_witness :
    utf8Len (truncate_str 2 ['a', 'b', 'c']) ≤ 2 ∧
    utf8Len (['a', 'b', 'c'].take 1) ≤ utf8Len (truncate_str 2 ['a', 'b', 'c']) ∧
    truncate_str 0 ['a', 'b', 'c'] = [] :=
  ⟨(truncate_str_spec 2 ['a', 'b', 'c']).2.1,
   (truncate_str_spec 2 ['a', 'b', 'c']).2.2.1 1 (by decide),
   (truncate_str_spec 0 ['a', 'b', 'c']).2.2.2.2 rfl⟩

/-! ## Reconciler cancellation (C3) -/

theorem lookup_insert_add_same (m : DelAddFacetValue) (f fid : Nat)
    (v value : List Nat) (k : FacetKind) (hk : k = .String ∨ k = .Number) :
    (m.insert_add f v k).lookup k fid value =
      if fid = f ∧ value = v then stepB (m.lookup k fid value) true
      else m.lookup k fid value := by
  have hgen : ∀ b : List (RKey × DelAdd),
      aGet (if aGet b (f, v) = some DelAdd.Deletion then aRemove b (f, v)
        else aInsert b (f, v) .Addition) (fid, value) =
      if fid = f ∧ value = v then stepB (aGet b (fid, value)) true
      else aGet b (fid, value) := by
    intro b
    split_ifs with h1 h2 h2
    · obtain ⟨rfl, rfl⟩ := h2
      rw [aGet_aRemove, if_pos rfl, h1]
      rfl
    · rw [aGet_aRemove, if_neg (by simpa [Prod.ext_iff] using h2)]
    · obtain ⟨rfl, rfl⟩ := h2
      rw [aGet_aInsert, if_pos rfl, stepB]
      rw [if_neg h1]
    · rw [aGet_aInsert, if_neg (by simpa [Prod.ext_iff] using h2)]
  rcases hk with rfl | rfl
  · show DelAddFacetValue.lookup
        (if aGet m.strings (f, v) = some DelAdd.Deletion
          then m.setBucket .String (aRemove m.strings (f, v))
          else m.setBucket .String (aInsert m.strings (f, v) .Addition))
        .String fid value = _
    rw [← apply_ite (m.setBucket .String)]
    exact hgen m.strings
  · show DelAddFacetValue.lookup
        (if aGet m.f64s (f, v) = some DelAdd.Deletion
          then m.setBucket .Number (aRemove m.f64s (f, v))
          else m.setBucket .Number (aInsert m.f64s (f, v) .Addition))
        .Number fid value = _
    rw [← apply_ite (m.setBucket .Number)]
    exact hgen m.f64s

theorem lookup_insert_del_same (m : DelAddFacetValue) (f fid : Nat)
    (v value : List Nat) (k : FacetKind) (hk : k = .String ∨ k = .Number) :
    (m.insert_del f v k).lookup k fid value =
      if fid = f ∧ value = v then stepB (m.lookup k fid value) false
      else m.lookup k fid value := by
  have hgen : ∀ b : List (RKey × DelAdd),
      aGet (if aGet b (f, v) = some DelAdd.Addition then aRemove b (f, v)
        else aInsert b (f, v) .Deletion) (fid, value) =
      if fid = f ∧ value = v then stepB (aGet b (fid, value)) false
      else aGet b (fid, value) := by
    intro b
    split_ifs with h1 h2 h2
    · obtain ⟨rfl, rfl⟩ := h2
      rw [aGet_aRemove, if_pos rfl, h1]
      rfl
    · rw [aGet_aRemove, if_neg (by simpa [Prod.ext_iff] using h2)]
    · obtain ⟨rfl, rfl⟩ := h2
      rw [aGet_aInsert, if_pos rfl, stepB]
      rw [if_neg h1]
    · rw [aGet_aInsert, if_neg (by simpa [Prod.ext_iff] using h2)]
  rcases hk with rfl | rfl
  · show DelAddFacetValue.lookup
        (if aGet m.strings (f, v) = some DelAdd.Addition
          then m.setBucket .String (aRemove m.strings (f, v))
          else m.setBucket .String (aInsert m.strings (f, v) .Deletion))
        .String fid value = _
    rw [← apply_ite (m.setBucket .String)]
    exact hgen m.strings
  · show DelAddFacetValue.lookup
        (if aGet m.f64s (f, v) = some DelAdd.Addition
          then m.setBucket .Number (aRemove m.f64s (f, v))
          else m.setBucket .Number (aInsert m.f64s (f, v) .Deletion))
        .Number fid value = _
    rw [← apply_ite (m.setBucket .Number)]
    exact hgen m.f64s

theorem lookup_insert_add_diff (m : DelAddFacetValue) (f : Nat)
    (v : List Nat) (k kind : FacetKind) (fid : Nat) (value : List Nat)
    (hk : k = .String ∨ k = .Number) (hne : kind ≠ k) :
    (m.insert_add f v k).lookup kind fid value = m.lookup kind fid value := by
  rcases hk with rfl | rfl
  · show DelAddFacetValue.lookup
        (if aGet m.strings (f, v) = some DelAdd.Deletion
          then m.setBucket .String (aRemove m.strings (f, v))
          else m.setBucket .String (aInsert m.strings (f, v) .Addition))
        kind fid value = _
    split_ifs <;> cases kind <;> first | rfl | exact absurd rfl hne
  · show DelAddFacetValue.lookup
        (if aGet m.f64s (f, v) = some DelAdd.Deletion
          then m.setBucket .Number (aRemove m.f64s (f, v))
          else m.setBucket .Number (aInsert m.f64s (f, v) .Addition))
        kind fid value = _
    split_ifs <;> cases kind <;> first | rfl | exact absurd rfl hne

theorem lookup_insert_del_diff (m : DelAddFacetValue) (f : Nat)
    (v : List Nat) (k kind : FacetKind) (fid : Nat) (value : List Nat)
    (hk : k = .String ∨ k = .Number) (hne : kind ≠ k) :
    (m.insert_del f v k).lookup kind fid value = m.lookup kind fid value := by
  rcases hk with rfl | rfl
  · show DelAddFacetValue.lookup
        (if aGet m.strings (f, v) = some DelAdd.Addition
          then m.setBucket .String (aRemove m.strings (f, v))
          else m.setBucket .String (aInsert m.strings (f, v) .Deletion))
        kind fid value = _
    split_ifs <;> cases kind <;> first | rfl | exact absurd rfl hne
  · show DelAddFacetValue.lookup
        (if aGet m.f64s (f, v) = some DelAdd.Addition
          then m.setBucket .Number (aRemove m.f64s (f, v))
          else m.setBucket .Number (aInsert m.f64s (f, v) .Deletion))
        kind fid value = _
    split_ifs <;> cases kind <;> first | rfl | exact absurd rfl hne

theorem lookup_applyOp (m : DelAddFacetValue) (op : RecOp) (kind : FacetKind)
    (fid : Nat) (value : List Nat)
    (hopk : op.kind = .String ∨ op.kind = .Number) :
    (applyOp m op).lookup kind fid value =
      if op.kind = kind ∧ op.fid = fid ∧ op.value = value then
        stepB (m.lookup kind fid value) op.isAdd
      else m.lookup kind fid value := by
  cases op with
  | add f' v' k' =>
    simp only [applyOp, RecOp.kind, RecOp.fid, RecOp.value, RecOp.isAdd]
      at hopk ⊢
    by_cases hkk : k' = kind
    · subst hkk
      rw [lookup_insert_add_same m f' fid v' value k' hopk]
      by_cases hfv : fid = f' ∧ value = v'
      · rw [if_pos hfv, if_pos ⟨rfl, hfv.1.symm, hfv.2.symm⟩]
      · rw [if_neg hfv, if_neg (fun hc => hfv ⟨hc.2.1.symm, hc.2.2.symm⟩)]
    · rw [lookup_insert_add_diff m f' v' k' kind fid value hopk
        (fun h => hkk h.symm)]
      rw [if_neg (fun hc => hkk hc.1)]
  | del f' v' k' =>
    simp only [applyOp, RecOp.kind, RecOp.fid, RecOp.value, RecOp.isAdd]
      at hopk ⊢
    by_cases hkk : k' = kind
    · subst hkk
      rw [lookup_insert_del_same m f' fid v' value k' hopk]
      by_cases hfv : fid = f' ∧ value = v'
      · rw [if_pos hfv, if_pos ⟨rfl, hfv.1.symm, hfv.2.symm⟩]
      · rw [if_neg hfv, if_neg (fun hc => hfv ⟨hc.2.1.symm, hc.2.2.symm⟩)]
    · rw [lookup_insert_del_diff m f' v' k' kind fid value hopk
        (fun h => hkk h.symm)]
      rw [if_neg (fun hc => hkk hc.1)]

theorem lookup_runOps (ops : List RecOp) (m : DelAddFacetValue)
    (kind : FacetKind) (fid : Nat) (value : List Nat)
    (hops : ∀ op ∈ ops, op.kind = .String ∨ op.kind = .Number) :
    (runOps ops m).lookup kind fid value =
      (opsAt kind fid value ops).foldl stepB (m.lookup kind fid value) := by
  induction ops generalizing m with
  | nil => rfl
  | cons op t ih =>
    have hopk := hops op (List.mem_cons_self op t)
    have ht : ∀ o ∈ t, o.kind = .String ∨ o.kind = .Number :=
      fun o ho => hops o (List.mem_cons_of_mem op ho)
    rw [show runOps (op :: t) m = runOps t (applyOp m op) from rfl,
      ih (applyOp m op) ht, lookup_applyOp m op kind fid value hopk]
    by_cases hmatch : op.kind = kind ∧ op.fid = fid ∧ op.value = value
    · rw [if_pos hmatch]
      have hfilter : opsAt kind fid value (op :: t) =
          op.isAdd :: opsAt kind fid value t := by
        simp [opsAt, hmatch.1, hmatch.2.1, hmatch.2.2]
      rw [hfilter, List.foldl_cons]
    · rw [if_neg hmatch]
      have hfilter : opsAt kind fid value (op :: t) =
          opsAt kind fid value t := by
        have hp : (decide (op.kind = kind) && decide (op.fid = fid) &&
            decide (op.value = value)) = false := by
          rcases Decidable.em (op.kind = kind) with h1 | h1 <;>
            rcases Decidable.em (op.fid = fid) with h2 | h2 <;>
            rcases Decidable.em (op.value = value) with h3 | h3 <;>
            simp [h1, h2, h3]
          exact hmatch ⟨h1, h2, h3⟩
        simp [opsAt, List.filter_cons, hp]
      rw [hfilter]

theorem stepB_fold_balanced : (l : List Bool) → alternating l = true →
    l.count true = l.count false → l.foldl stepB none = none
  | [], _, _ => rfl
  | [x], _, hb => by cases x <;> simp [List.count_cons] at hb
  | x :: y :: t, hc, hb => by
    have h1 : (x != y) = true ∧ alternating (y :: t) = true := by
      simpa [alternating] using hc
    have ht : alternating t = true := by
      cases t with
      | nil => rfl
      | cons z t' =>
        have := h1.2
        simp only [alternating, Bool.and_eq_true] at this
        exact this.2
    have hy : y = !x := by
      have := h1.1
      cases x <;> cases y <;> simp_all
    subst hy
    have hfold : (x :: ((!x) :: t)).foldl stepB none = t.foldl stepB none := by
      cases x <;> rfl
    rw [hfold]
    refine stepB_fold_balanced t ht ?_
    cases x <;> simp [List.count_cons] at hb ⊢ <;> omega

/-- C3 counterexample: the sequence add, add, del, del on one key is a
multiset in which every add has a matching del, yet the second `insert_del`
finds no `Addition` left (the first del already cancelled the collapsed
adds) and stores `Deletion`, so the map is not empty. -/
theorem balanced_inserts_leave_residue_cex :
    runOps [.add 1 [65] .String, .add 1 [65] .String,
        .del 1 [65] .String, .del 1 [65] .String] DelAddFacetValue.new ≠
      DelAddFacetValue.new := by
  decide

/-- C3 amended: starting from a fresh reconciler, for every sequence of
`insert_add` / `insert_del` calls over `(fid, value, kind)` triples of kind
`String` or `Number` in which, for each targeted triple, the adds and dels
alternate and have equal counts (in particular every add has a matching
del), the resulting maps are empty and the flush sends nothing. -/
theorem reconciler_cancellation_alternating (normalize : List Char → List Char)
    (maxLen : Nat) (docid : Nat) (ops : List RecOp)
    (hkinds : ∀ op ∈ ops, op.kind = .String ∨ op.kind = .Number)
    (hbal : ∀ op ∈ ops,
      alternating (opsAt op.kind op.fid op.value ops) = true ∧
      (opsAt op.kind op.fid op.value ops).count true =
        (opsAt op.kind op.fid op.value ops).count false) :
    runOps ops DelAddFacetValue.new = DelAddFacetValue.new ∧
    (runOps ops DelAddFacetValue.new).send_data normalize maxLen docid = [] := by
  have hlookup : ∀ (kind : FacetKind) (fid : Nat) (value : List Nat),
      kind = .String ∨ kind = .Number →
      (runOps ops DelAddFacetValue.new).lookup kind fid value = none := by
    intro kind fid value hkind
    rw [lookup_runOps ops _ kind fid value hkinds]
    have hinit : DelAddFacetValue.new.lookup kind fid value = none := by
      rcases hkind with rfl | rfl <;> rfl
    rw [hinit]
    by_cases hne : opsAt kind fid value ops = []
    · rw [hne]
      rfl
    · have hfne : ops.filter (fun op =>
          decide (op.kind = kind) && decide (op.fid = fid) &&
            decide (op.value = value)) ≠ [] := by
        intro hc
        exact hne (by simp [opsAt, hc])
      obtain ⟨op, hop⟩ := List.exists_mem_of_ne_nil _ hfne
      obtain ⟨hmem, hpred⟩ := List.mem_filter.mp hop
      have hk : op.kind = kind ∧ op.fid = fid ∧ op.value = value := by
        simpa [and_assoc] using hpred
      have hb := hbal op hmem
      rw [hk.1, hk.2.1, hk.2.2] at hb
      exact stepB_fold_balanced _ hb.1 hb.2
  have hs : (runOps ops DelAddFacetValue.new).strings = [] := by
    refine aGet_none_iff_nil _ (fun k => ?_)
    exact hlookup .String k.1 k.2 (Or.inl rfl)
  have hf : (runOps ops DelAddFacetValue.new).f64s = [] := by
    refine aGet_none_iff_nil _ (fun k => ?_)
    exact hlookup .Number k.1 k.2 (Or.inr rfl)
  have hm : runOps ops DelAddFacetValue.new = DelAddFacetValue.new := by
    cases hr : runOps ops DelAddFacetValue.new
    rw [hr] at hs hf
    simp only at hs hf
    rw [hs, hf]
    rfl
  exact ⟨hm, by rw [hm]; rfl⟩

/-- C3 witness: the amended cancellation at a concrete input, a matched
add/del pair on a string key and a matched del/add pair on a number key. -/
theorem reconciler_cancellation_witness :
    runOps [.add 1 [65] .String, .del 2 [7] .Number, .del 1 [65] .String,
        .add 2 [7] .Number] DelAddFacetValue.new = DelAddFacetValue.new ∧
    (runOps [.add 1 [65] .String, .del 2 [7] .Number, .del 1 [65] .String,
        .add 2 [7] .Number] DelAddFacetValue.new).send_data id 5 3 = [] :=
  reconciler_cancellation_alternating id 5 3
    [.add 1 [65] .String, .del 2 [7] .Number, .del 1 [65] .String,
      .add 2 [7] .Number]
    (by decide) (by decide)

/-! ## `send_data` (C9) -/

/-- C9: at flush time, `send_data` skips every `strings` entry whose value
bytes are not valid UTF-8; every remaining `strings` entry produces exactly
one sender call keyed `fid_be(2) ++ docid_be(4) ++ truncate(normalize(s))`
(a write carrying the original value bytes for `Addition`, a delete for
`Deletion`); and every `f64s` entry produces exactly one f64 call keyed
`fid_be(2) ++ docid_be(4) ++ ordered_bytes`. -/
theorem send_data_characterization (normalize : List Char → List Char)
    (maxLen : Nat) (m : DelAddFacetValue) (docid : Nat) :
    m.send_data normalize maxLen docid =
      (m.strings.filterMap fun e =>
        match utf8Decode e.1.2 with
        | none => none
        | some s =>
          some (match e.2 with
            | .Deletion =>
              SendEvent.delete_facet_string
                (beBytes2 e.1.1 ++ beBytes4 docid
                  ++ utf8Encode (truncate_str maxLen (normalize s)))
            | .Addition =>
              SendEvent.write_facet_string
                (beBytes2 e.1.1 ++ beBytes4 docid
                  ++ utf8Encode (truncate_str maxLen (normalize s))) e.1.2)) ++
      m.f64s.map fun e =>
        match e.2 with
        | .Deletion =>
          SendEvent.delete_facet_f64 (beBytes2 e.1.1 ++ beBytes4 docid ++ e.1.2)
        | .Addition =>
          SendEvent.write_facet_f64 (beBytes2 e.1.1 ++ beBytes4 docid ++ e.1.2) := by
  rw [DelAddFacetValue.send_data]
  congr 1
  · induction m.strings with
    | nil => rfl
    | cons e t ih =>
      obtain ⟨⟨fid, value⟩, deladd⟩ := e
      rw [sendStrings, List.filterMap_cons]
      cases hdec : utf8Decode value with
      | none => simpa [hdec] using ih
      | some s => cases deladd <;> simpa [hdec] using ih
  · induction m.f64s with
    | nil => rfl
    | cons e t ih =>
      obtain ⟨⟨fid, value⟩, deladd⟩ := e
      rw [sendF64s, List.map_cons]
      cases deladd <;> simpa using ih

end FacetExtract
